import Mathlib

/-!
Verification of `seisbench/util/trace_ops.py`.

Shallow embedding conventions:
* floating-point amplitudes, times and rates are modelled as exact rationals (`ℚ`);
* Python strings are modelled as `List Char`; `str.split(".")` and `".".join`
  are embedded as `pySplit` / `List.intercalate`;
* Python `int(x)` (truncation toward zero) is `pyTrunc`;
* a numpy row of the assembled array is modelled as a total function `ℤ → ℚ`;
  the slice assignment `data[c, s : s + l] = trace.data[:l]` becomes a pointwise
  update on the interval `[s, s + l)` (`writeTrace`);
* the warning side channel of `stream_to_array` is returned as an explicit list
  of (identifier, timestamp) pairs.
-/

/-- Python `int(x)` on a rational: truncation toward zero. -/
def pyTrunc (x : ℚ) : ℤ := if 0 ≤ x then ⌊x⌋ else ⌈x⌉

/-- `waveform_id_to_network_station_location` from `trace_ops.py`:
split on `"."`; if not exactly 4 parts return the input unchanged, otherwise
rejoin all parts but the last with `"."`. Python `str.split(".")` (keeping
empty parts, `[""]` on the empty string) is `List.splitOn '.'` on `List Char`. -/
def waveform_id_to_network_station_location (waveform_id : List Char) : List Char :=
  let parts := waveform_id.splitOn '.'
  if parts.length ≠ 4 then waveform_id
  else List.intercalate ['.'] parts.dropLast

/-- Ascending insertion into a list of rationals (helper for `sortQ`). -/
def insertQ (x : ℚ) : List ℚ → List ℚ
  | [] => [x]
  | y :: ys => if y ≤ x then y :: insertQ x ys else x :: y :: ys

/-- Ascending sort of a list of rationals (used to embed the sorting step of
`np.quantile`). -/
def sortQ (l : List ℚ) : List ℚ := l.foldr insertQ []

/-- `np.quantile(xs, q)` for a 1-D array, with the default linear interpolation:
at fractional position `h = q * (n - 1)` inside the ascending sort of `xs`.
Empty input is undefined behaviour in the source (numpy yields nan). -/
def npQuantile (q : ℚ) (xs : List ℚ) : ℚ :=
  let s := sortQ xs
  let n := xs.length
  let h : ℚ := q * ((n : ℚ) - 1)
  let i : ℕ := (⌊h⌋).toNat
  let lo := s.getD i 0
  let hi := s.getD (min (i + 1) (n - 1)) 0
  lo + (h - (⌊h⌋ : ℚ)) * (hi - lo)

/-- `trace_has_spikes(data, factor, quantile)` from `trace_ops.py`:
`q = np.quantile(np.abs(data), quantile, axis=1, keepdims=True)` followed by
`np.any(data > q * factor)`, over a 2-D array given as a list of rows. -/
def trace_has_spikes (data : List (List ℚ)) (factor : ℚ) (quantile : ℚ) : Bool :=
  data.any fun row =>
    row.any fun x => npQuantile quantile (row.map fun v => |v|) * factor < x

/-- A single-station waveform trace: the slice of `obspy.Trace` used by
`trace_ops.py` (`stats.network/station/location/channel`, `stats.starttime`,
`stats.sampling_rate`, and the sample buffer `data`). -/
structure Trace where
  network : List Char
  station : List Char
  location : List Char
  channel : List Char
  starttime : ℚ
  sampling_rate : ℚ
  data : List ℚ
deriving DecidableEq, Inhabited

/-- `trace.stats.npts = len(trace.data)`. -/
def Trace.npts (t : Trace) : ℕ := t.data.length

/-- `trace.stats.endtime = starttime + (npts - 1) / sampling_rate` (obspy). -/
def Trace.endtime (t : Trace) : ℚ :=
  t.starttime + ((t.data.length : ℚ) - 1) / t.sampling_rate

/-- `trace.id = "NET.STA.LOC.CHA"` (obspy), as a dot-joined character list. -/
def Trace.tid (t : Trace) : List Char :=
  List.intercalate ['.'] [t.network, t.station, t.location, t.channel]

/-- Modelled from the spec: `stream.select(channel="??C")` of the external
waveform-collection collaborator selects the traces whose channel code is any
two characters followed by the component code, preserving order. -/
def channelMatches (c : Char) (t : Trace) : Bool :=
  match t.channel with
  | [_, _, x] => x = c
  | _ => false

/-- The sub-collection of traces matching component `c`, in stream order. -/
def selectChannel (stream : List Trace) (c : Char) : List Trace :=
  stream.filter (channelMatches c)

/-- Stable insertion by sample count (helper for `sortByNpts`): the inserted
trace, which precedes the list in the original order, goes before traces of
equal length. -/
def insertNpts (t : Trace) : List Trace → List Trace
  | [] => [t]
  | u :: us => if u.data.length < t.data.length then u :: insertNpts t us else t :: u :: us

/-- Python `sorted(c_stream, key=lambda x: x.stats.npts)`: a stable ascending
sort by sample count. -/
def sortByNpts (l : List Trace) : List Trace := l.foldr insertNpts []

/-- `starttime = min(trace.stats.starttime for trace in stream)`; the empty
stream is undefined behaviour in the source (Python raises). -/
def s2aStart : List Trace → ℚ
  | [] => 0
  | [t] => t.starttime
  | t :: u :: ts => min t.starttime (s2aStart (u :: ts))

/-- `endtime = max(trace.stats.endtime for trace in stream)`. -/
def s2aEnd : List Trace → ℚ
  | [] => 0
  | [t] => t.endtime
  | t :: u :: ts => max t.endtime (s2aEnd (u :: ts))

/-- `sampling_rate = stream[0].stats.sampling_rate`. -/
def s2aRate (stream : List Trace) : ℚ := stream.headI.sampling_rate

/-- `samples = int((endtime - starttime) * sampling_rate) + 1`. -/
def s2aSamples (stream : List Trace) : ℤ :=
  pyTrunc ((s2aEnd stream - s2aStart stream) * s2aRate stream) + 1

/-- `start_sample = int((trace.stats.starttime - starttime) * sampling_rate)`. -/
def tOffset (st r : ℚ) (t : Trace) : ℤ := pyTrunc ((t.starttime - st) * r)

/-- `l = min(len(trace.data), samples - start_sample)`. -/
def tCopyLen (st r : ℚ) (samples : ℤ) (t : Trace) : ℤ :=
  min (t.data.length : ℤ) (samples - tOffset st r t)

/-- `data[c_idx, start_sample : start_sample + l] = trace.data[:l]`, as a
pointwise update of the row on the half-open interval
`[start_sample, start_sample + l)`. -/
def writeTrace (st r : ℚ) (samples : ℤ) (row : ℤ → ℚ) (t : Trace) : ℤ → ℚ :=
  fun i =>
    if tOffset st r t ≤ i ∧ i < tOffset st r t + tCopyLen st r samples t then
      t.data.getD (i - tOffset st r t).toNat 0
    else row i

/-- The inner loop `for trace in c_stream`, starting from the all-zero row. -/
def componentRow (st r : ℚ) (samples : ℤ) (ts : List Trace) : ℤ → ℚ :=
  ts.foldl (writeTrace st r samples) (fun _ => 0)

/-- `c_completeness`: the sum of the copied lengths `l` over the traces
processed for one component. -/
def componentCopied (st r : ℚ) (samples : ℤ) (ts : List Trace) : ℤ :=
  (ts.map (tCopyLen st r samples)).sum

/-- The trace list the component loop iterates over: the selection, sorted by
sample count when more than one trace matched. -/
def processedTraces (stream : List Trace) (c : Char) : List Trace :=
  let cs := selectChannel stream c
  if 1 < cs.length then sortByNpts cs else cs

/-- `min(1.0, c_completeness / samples)`: one component's completeness term. -/
def componentTerm (stream : List Trace) (c : Char) : ℚ :=
  min 1 ((componentCopied (s2aStart stream) (s2aRate stream) (s2aSamples stream)
            (processedTraces stream c) : ℚ) / ((s2aSamples stream : ℤ) : ℚ))

/-- `np.mean(row)` over the `samples` columns of a row. -/
def rowMean (samples : ℤ) (row : ℤ → ℚ) : ℚ :=
  (∑ j ∈ Finset.range samples.toNat, row (j : ℤ)) / (samples : ℚ)

/-- The result of `stream_to_array`: the returned triple plus the warnings the
source sends to the logging collaborator, each as (trace id, timestamp). -/
structure S2AResult where
  starttime : ℚ
  data : List (ℤ → ℚ)
  completeness : ℚ
  warnings : List (List Char × ℚ)

/-- `stream_to_array(stream, component_order)` from `trace_ops.py`: per
requested component, select and (when several matched, after a warning) sort
the traces, copy each into the row, accumulate the copied sample counts; then
subtract the row means and average the capped per-component completeness. -/
def stream_to_array (stream : List Trace) (component_order : List Char) : S2AResult :=
  let st := s2aStart stream
  let r := s2aRate stream
  let n := s2aSamples stream
  { starttime := st
    data := component_order.map fun c =>
      let raw := componentRow st r n (processedTraces stream c)
      fun i => raw i - rowMean n raw
    completeness :=
      (component_order.foldl (fun acc c => acc + componentTerm stream c) 0) /
        (component_order.length : ℚ)
    warnings :=
      component_order.foldl (fun acc c =>
        if 1 < (selectChannel stream c).length then
          acc ++ [((selectChannel stream c).headI.tid, stream.headI.starttime)]
        else acc) [] }

/-- The preconditions under which the assembler is used (spec §3, §7): a
non-empty collection of non-empty traces with one positive sampling rate. -/
abbrev ValidStream (stream : List Trace) : Prop :=
  stream ≠ [] ∧ 0 < s2aRate stream ∧
    (∀ t ∈ stream, t.sampling_rate = s2aRate stream) ∧
    (∀ t ∈ stream, t.data ≠ [])

/-- The failure kinds the `except` clauses of `rotate_stream_to_ZNE` catch:
`ValueError`, `NotImplementedError`, `AttributeError`, `ObsPyException`, and
the plain `Exception` obspy raises for missing channel metadata. -/
inductive PyError
  | valueError
  | notImplementedError
  | attributeError
  | obsPyError
  | otherError
deriving DecidableEq

/-- Modelled from the spec: the metadata lookup collaborator (obspy
`Inventory`), queried by the rotation procedure; its shape is out of scope. -/
structure Inventory where
  channels : List (List Char)
deriving DecidableEq, Inhabited

/-- `rotate_stream_to_ZNE(stream, inventory)` from `trace_ops.py`, over an
abstract rotation procedure `rotateImpl` standing for the external
`stream.rotate("->ZNE", inventory=inventory)` (modelled from the spec as
atomic: it either returns the rotated collection or fails). Each `except`
branch of the source returns the collection as it was. -/
def rotate_stream_to_ZNE (rotateImpl : List Trace → Inventory → Except PyError (List Trace))
    (stream : List Trace) (inventory : Inventory) : List Trace :=
  match rotateImpl stream inventory with
  | .ok rotated => rotated
  | .error .valueError => stream
  | .error .notImplementedError => stream
  | .error .attributeError => stream
  | .error .obsPyError => stream
  | .error .otherError => stream

/-- Of two traces, the one with more samples (`ta` on a tie; used to phrase the
duplicate-trace precedence property). -/
def longTrace (ta tb : Trace) : Trace :=
  if ta.data.length < tb.data.length then tb else ta

/-- Of two traces, the one with fewer samples (`tb` on a tie). -/
def shortTrace (ta tb : Trace) : Trace :=
  if ta.data.length < tb.data.length then ta else tb

/-- Concrete fixture: a vertical-component trace. -/
def wZ : Trace :=
  { network := "XX".toList, station := "ST01".toList, location := [],
    channel := "HHZ".toList, starttime := 0, sampling_rate := 1, data := [1, 2, 3] }

/-- Concrete fixture: a north-component trace. -/
def wN : Trace :=
  { network := "XX".toList, station := "ST01".toList, location := [],
    channel := "HHN".toList, starttime := 0, sampling_rate := 1, data := [4, 5, 6] }

/-- Concrete fixture: a two-component collection. -/
def wStream : List Trace := [wZ, wN]

/-- Concrete fixture: a short vertical trace (duplicate-component case). -/
def dupShort : Trace :=
  { network := "XX".toList, station := "ST01".toList, location := [],
    channel := "HHZ".toList, starttime := 0, sampling_rate := 1, data := [1, 2] }

/-- Concrete fixture: a longer vertical trace for the same component. -/
def dupLong : Trace :=
  { network := "XX".toList, station := "ST01".toList, location := [],
    channel := "HHZ".toList, starttime := 0, sampling_rate := 1, data := [9, 9, 9] }

/-- Concrete fixture: a collection with two traces for component `Z`. -/
def dupStream : List Trace := [dupShort, dupLong]

/-- Concrete fixture: first trace starts later than the second, so the
collection's first trace's start time differs from its earliest start time. -/
def lateFirst : Trace :=
  { network := "XX".toList, station := "ST01".toList, location := [],
    channel := "HHZ".toList, starttime := 5, sampling_rate := 1, data := [1] }

/-- Concrete fixture: the earlier-starting duplicate of `lateFirst`. -/
def earlySecond : Trace :=
  { network := "XX".toList, station := "ST01".toList, location := [],
    channel := "HHZ".toList, starttime := 0, sampling_rate := 1, data := [1, 2] }

/-- Concrete fixture: collection whose first trace does not start earliest. -/
def lateFirstStream : List Trace := [lateFirst, earlySecond]

/-- Concrete fixture: a rotation procedure that always fails with the plain
`Exception` obspy raises for missing channel metadata. -/
def failRotate : List Trace → Inventory → Except PyError (List Trace) :=
  fun _ _ => .error .otherError

/-- No element of a chunk produced by `splitOnP p` satisfies `p`. -/
theorem splitOnP_not_sat {α : Type _} (p : α → Bool) :
    ∀ (xs : List α), ∀ l ∈ xs.splitOnP p, ∀ a ∈ l, ¬ p a = true := by
  intro xs
  induction xs with
  | nil =>
    intro l hl
    rw [List.splitOnP_nil, List.mem_singleton] at hl
    subst hl
    intro a ha
    exact absurd ha (List.not_mem_nil a)
  | cons c tl ih =>
    intro l hl
    rw [List.splitOnP_cons] at hl
    by_cases hc : p c
    · rw [if_pos hc] at hl
      rcases List.mem_cons.mp hl with h | h
      · subst h; intro a ha; exact absurd ha (List.not_mem_nil a)
      · exact ih l h
    · rw [if_neg hc] at hl
      cases h' : tl.splitOnP p with
      | nil => exact absurd h' (List.splitOnP_ne_nil p tl)
      | cons hd tl' =>
        rw [h', List.modifyHead_cons] at hl
        rcases List.mem_cons.mp hl with h | h
        · subst h
          intro a ha
          rcases List.mem_cons.mp ha with rfl | ha'
          · exact hc
          · exact ih hd (h' ▸ List.mem_cons_self hd tl') a ha'
        · exact ih l (h' ▸ List.mem_cons_of_mem hd h)

/-- The separator occurs in no chunk of `xs.splitOn x`. -/
theorem splitOn_sep_not_mem {α : Type _} [DecidableEq α] (x : α) (xs : List α) :
    ∀ l ∈ xs.splitOn x, x ∉ l := by
  intro l hl hx
  have h := splitOnP_not_sat (· == x) xs l hl x hx
  simp at h

/-- Claim C7: the identifier normalizer is total: splitting on `'.'` into
exactly 4 parts yields the first 3 parts rejoined with `'.'`, and any other
input is returned unchanged. -/
theorem claim_C7 (w : List Char) :
    waveform_id_to_network_station_location w =
      if (w.splitOn '.').length = 4 then
        List.intercalate ['.'] ((w.splitOn '.').take 3)
      else w := by
  unfold waveform_id_to_network_station_location
  by_cases h : (w.splitOn '.').length = 4
  · rw [if_neg (not_not_intro h), if_pos h, List.dropLast_eq_take, h]
  · rw [if_pos h, if_neg h]

/-- Claim C10: the identifier normalizer is idempotent: a 4-part input maps to
a 3-part result which is then passed through unchanged, and all other inputs
are already passed through unchanged. -/
theorem claim_C10 (w : List Char) :
    waveform_id_to_network_station_location (waveform_id_to_network_station_location w) =
      waveform_id_to_network_station_location w := by
  by_cases h : (w.splitOn '.').length = 4
  · have h1 : waveform_id_to_network_station_location w =
        List.intercalate ['.'] ((w.splitOn '.').dropLast) := by
      unfold waveform_id_to_network_station_location
      rw [if_neg (not_not_intro h)]
    have hsub : ∀ l ∈ (w.splitOn '.').dropLast, '.' ∉ l := fun l hl =>
      splitOn_sep_not_mem '.' w l (List.dropLast_subset _ hl)
    have hlen : (w.splitOn '.').dropLast.length = 3 := by
      rw [List.length_dropLast, h]
    have hne : (w.splitOn '.').dropLast ≠ [] := by
      intro hnil
      rw [hnil] at hlen
      simp at hlen
    have h2 : (List.intercalate ['.'] ((w.splitOn '.').dropLast)).splitOn '.' =
        (w.splitOn '.').dropLast :=
      List.splitOn_intercalate _ '.' hsub hne
    rw [h1]
    unfold waveform_id_to_network_station_location
    rw [if_pos]
    rw [h2, hlen]
    norm_num
  · have h1 : waveform_id_to_network_station_location w = w := by
      unfold waveform_id_to_network_station_location
      rw [if_pos h]
    rw [h1, h1]

/-- Claim C6: the spike detector returns true iff some sample's raw signed
value strictly exceeds `factor` times the per-row quantile of the absolute
values of its row. -/
theorem claim_C6 (data : List (List ℚ)) (factor quantile : ℚ)
    (hf : 0 < factor) (hq0 : 0 < quantile) (hq1 : quantile < 1) :
    trace_has_spikes data factor quantile = true ↔
      ∃ i : Fin data.length, ∃ j : Fin (data.get i).length,
        factor * npQuantile quantile ((data.get i).map fun v => |v|) <
          (data.get i).get j := by
  unfold trace_has_spikes
  simp only [List.any_eq_true, decide_eq_true_eq]
  constructor
  · rintro ⟨row, hrow, x, hx, hlt⟩
    obtain ⟨i, hi⟩ := List.mem_iff_get.mp hrow
    subst hi
    obtain ⟨j, hj⟩ := List.mem_iff_get.mp hx
    subst hj
    exact ⟨i, j, by rw [mul_comm]; exact hlt⟩
  · rintro ⟨i, j, hij⟩
    refine ⟨data.get i, List.mem_iff_get.mpr ⟨i, rfl⟩,
      (data.get i).get j, List.mem_iff_get.mpr ⟨j, rfl⟩, ?_⟩
    rw [mul_comm] at hij
    exact hij

/-- Witness for C6 at a concrete input. -/
theorem claim_C6_witness :
    (0:ℚ) < 25 ∧ (0:ℚ) < 39/40 ∧ (39/40:ℚ) < 1 ∧
      (trace_has_spikes [[(1:ℚ)]] 25 (39/40) = true ↔
        ∃ i : Fin ([[(1:ℚ)]] : List (List ℚ)).length,
          ∃ j : Fin (([[(1:ℚ)]] : List (List ℚ)).get i).length,
            (25:ℚ) * npQuantile (39/40) ((([[(1:ℚ)]] : List (List ℚ)).get i).map fun v => |v|) <
              (([[(1:ℚ)]] : List (List ℚ)).get i).get j) :=
  ⟨by norm_num, by norm_num, by norm_num,
    claim_C6 [[(1:ℚ)]] 25 (39/40) (by norm_num) (by norm_num) (by norm_num)⟩

/-- Claim C5: the rotator catches every failure of the rotation procedure —
on any error the collection is returned unmodified, and otherwise the rotated
collection is returned; no error escapes. -/
theorem claim_C5 (rotateImpl : List Trace → Inventory → Except PyError (List Trace))
    (stream : List Trace) (inventory : Inventory) :
    (∀ e : PyError, rotateImpl stream inventory = .error e →
        rotate_stream_to_ZNE rotateImpl stream inventory = stream) ∧
    (rotate_stream_to_ZNE rotateImpl stream inventory = stream ∨
      ∃ rotated, rotateImpl stream inventory = .ok rotated ∧
        rotate_stream_to_ZNE rotateImpl stream inventory = rotated) := by
  constructor
  · intro e he
    unfold rotate_stream_to_ZNE
    rw [he]
    cases e <;> rfl
  · cases h : rotateImpl stream inventory with
    | ok rotated =>
      right
      refine ⟨rotated, rfl, ?_⟩
      unfold rotate_stream_to_ZNE
      rw [h]
    | error e =>
      left
      unfold rotate_stream_to_ZNE
      rw [h]
      cases e <;> rfl

/-- Witness for C5: a rotation procedure failing with the plain exception for
missing channel metadata leaves the collection unmodified. -/
theorem claim_C5_witness :
    failRotate wStream ⟨[]⟩ = .error .otherError ∧
      rotate_stream_to_ZNE failRotate wStream ⟨[]⟩ = wStream :=
  ⟨rfl, (claim_C5 failRotate wStream ⟨[]⟩).1 .otherError rfl⟩

/-- Accumulating `if p c then acc ++ [g c] else acc` over a list collects
`g` of exactly the elements satisfying `p`, in order. -/
theorem foldl_append_filter {α β : Type _} (p : α → Prop) [DecidablePred p] (g : α → β) :
    ∀ (l : List α) (acc : List β),
      l.foldl (fun a c => if p c then a ++ [g c] else a) acc =
        acc ++ (l.filter fun c => decide (p c)).map g := by
  intro l
  induction l with
  | nil => intro acc; simp
  | cons c tl ih =>
    intro acc
    by_cases hc : p c
    · simp [hc, ih, List.filter_cons]
    · simp [hc, ih, List.filter_cons]

/-- Counterexample to claim C8 as stated: with a collection whose first trace
is not the earliest, the duplicate-trace warning carries the first trace's
start time (5), not the collection's earliest start time (0). -/
theorem claim_C8_counterexample :
    (stream_to_array lateFirstStream ['Z']).warnings = [(lateFirst.tid, 5)] ∧
      s2aStart lateFirstStream = 0 ∧ ((5:ℚ)) ≠ 0 :=
  ⟨by decide, by decide, by decide⟩

/-- Claim C8, amended: for each requested component matched by more than one
trace, the assembler emits exactly one warning, in component order, naming the
first matched trace's full identifier and the start time of the collection's
first trace (not necessarily its earliest start time). -/
theorem claim_C8 (stream : List Trace) (order : List Char) :
    (stream_to_array stream order).warnings =
      (order.filter fun c => decide (1 < (selectChannel stream c).length)).map
        fun c => ((selectChannel stream c).headI.tid, stream.headI.starttime) := by
  show (order.foldl (fun acc c =>
      if 1 < (selectChannel stream c).length then
        acc ++ [((selectChannel stream c).headI.tid, stream.headI.starttime)]
      else acc) []) = _
  rw [foldl_append_filter (fun c => 1 < (selectChannel stream c).length)
    (fun c => ((selectChannel stream c).headI.tid, stream.headI.starttime)) order []]
  simp

/-- `pyTrunc` agrees with the floor on non-negative arguments. -/
theorem pyTrunc_eq_floor {x : ℚ} (h : 0 ≤ x) : pyTrunc x = ⌊x⌋ := if_pos h

/-- `pyTrunc` of a non-negative rational is non-negative. -/
theorem pyTrunc_nonneg {x : ℚ} (h : 0 ≤ x) : 0 ≤ pyTrunc x := by
  rw [pyTrunc_eq_floor h]
  exact Int.floor_nonneg.mpr h

/-- `pyTrunc` is monotone on non-negative arguments. -/
theorem pyTrunc_mono {x y : ℚ} (hx : 0 ≤ x) (hxy : x ≤ y) : pyTrunc x ≤ pyTrunc y := by
  rw [pyTrunc_eq_floor hx, pyTrunc_eq_floor (hx.trans hxy)]
  exact Int.floor_le_floor hxy

/-- The collection start time is at most every member's start time. -/
theorem s2aStart_le {stream : List Trace} {t : Trace} (ht : t ∈ stream) :
    s2aStart stream ≤ t.starttime := by
  induction stream with
  | nil => exact absurd ht (List.not_mem_nil t)
  | cons u tl ih =>
    cases tl with
    | nil =>
      rw [List.mem_singleton] at ht
      subst ht
      exact le_of_eq rfl
    | cons v tl' =>
      rcases List.mem_cons.mp ht with rfl | h
      · exact min_le_left _ _
      · exact le_trans (min_le_right _ _) (ih h)

/-- The collection end time is at least every member's end time. -/
theorem s2aEnd_ge {stream : List Trace} {t : Trace} (ht : t ∈ stream) :
    t.endtime ≤ s2aEnd stream := by
  induction stream with
  | nil => exact absurd ht (List.not_mem_nil t)
  | cons u tl ih =>
    cases tl with
    | nil =>
      rw [List.mem_singleton] at ht
      subst ht
      exact le_of_eq rfl
    | cons v tl' =>
      rcases List.mem_cons.mp ht with rfl | h
      · exact le_max_left _ _
      · exact le_trans (ih h) (le_max_right _ _)

/-- A non-empty trace of a valid collection starts no later than it ends. -/
theorem trace_start_le_end {stream : List Trace} {t : Trace}
    (h : ValidStream stream) (ht : t ∈ stream) : t.starttime ≤ t.endtime := by
  obtain ⟨hne, hr, hrate, hdata⟩ := h
  unfold Trace.endtime
  have hl : 1 ≤ t.data.length := List.length_pos.mpr (hdata t ht)
  have hnum : (0:ℚ) ≤ (t.data.length : ℚ) - 1 := by
    have : (1:ℚ) ≤ (t.data.length : ℚ) := by exact_mod_cast hl
    linarith
  have hdiv : (0:ℚ) ≤ ((t.data.length : ℚ) - 1) / t.sampling_rate := by
    apply div_nonneg hnum
    rw [hrate t ht]
    exact le_of_lt hr
  linarith

/-- The earliest start is at most the latest end, for a valid collection. -/
theorem s2aEnd_ge_start {stream : List Trace} (h : ValidStream stream) :
    s2aStart stream ≤ s2aEnd stream := by
  obtain ⟨t, ht⟩ := List.exists_mem_of_ne_nil stream h.1
  exact le_trans (s2aStart_le ht)
    (le_trans (trace_start_le_end h ht) (s2aEnd_ge ht))

/-- The output sample count of a valid collection is at least 1. -/
theorem s2aSamples_pos {stream : List Trace} (h : ValidStream stream) :
    1 ≤ s2aSamples stream := by
  unfold s2aSamples
  have h0 : 0 ≤ (s2aEnd stream - s2aStart stream) * s2aRate stream :=
    mul_nonneg (sub_nonneg.mpr (s2aEnd_ge_start h)) (le_of_lt h.2.1)
  have := pyTrunc_nonneg h0
  omega

/-- Every member trace's start offset is non-negative. -/
theorem tOffset_nonneg {stream : List Trace} {t : Trace}
    (h : ValidStream stream) (ht : t ∈ stream) :
    0 ≤ tOffset (s2aStart stream) (s2aRate stream) t :=
  pyTrunc_nonneg (mul_nonneg (sub_nonneg.mpr (s2aStart_le ht)) (le_of_lt h.2.1))

/-- Every member trace's start offset is at most the last output column. -/
theorem tOffset_le {stream : List Trace} {t : Trace}
    (h : ValidStream stream) (ht : t ∈ stream) :
    tOffset (s2aStart stream) (s2aRate stream) t ≤ s2aSamples stream - 1 := by
  unfold tOffset s2aSamples
  have harg : 0 ≤ (t.starttime - s2aStart stream) * s2aRate stream :=
    mul_nonneg (sub_nonneg.mpr (s2aStart_le ht)) (le_of_lt h.2.1)
  have hle : (t.starttime - s2aStart stream) * s2aRate stream ≤
      (s2aEnd stream - s2aStart stream) * s2aRate stream := by
    apply mul_le_mul_of_nonneg_right _ (le_of_lt h.2.1)
    have hse : t.starttime ≤ s2aEnd stream :=
      le_trans (trace_start_le_end h ht) (s2aEnd_ge ht)
    linarith
  have := pyTrunc_mono harg hle
  omega

/-- Every member trace's clamped copy length is non-negative. -/
theorem tCopyLen_nonneg {stream : List Trace} {t : Trace}
    (h : ValidStream stream) (ht : t ∈ stream) :
    0 ≤ tCopyLen (s2aStart stream) (s2aRate stream) (s2aSamples stream) t := by
  unfold tCopyLen
  have h2 := tOffset_le h ht
  refine le_min (Int.natCast_nonneg _) ?_
  omega

/-- Claim C9: every write of the assembler is in bounds: for each trace of a
valid collection, the start offset lies in `[0, samples − 1]`, the clamped
copy length is non-negative, and offset + length ≤ samples. -/
theorem claim_C9 (stream : List Trace) (h : ValidStream stream) :
    ∀ t ∈ stream,
      0 ≤ tOffset (s2aStart stream) (s2aRate stream) t ∧
        tOffset (s2aStart stream) (s2aRate stream) t ≤ s2aSamples stream - 1 ∧
        0 ≤ tCopyLen (s2aStart stream) (s2aRate stream) (s2aSamples stream) t ∧
        tOffset (s2aStart stream) (s2aRate stream) t +
            tCopyLen (s2aStart stream) (s2aRate stream) (s2aSamples stream) t ≤
          s2aSamples stream := by
  intro t ht
  refine ⟨tOffset_nonneg h ht, tOffset_le h ht, tCopyLen_nonneg h ht, ?_⟩
  have hmin : tCopyLen (s2aStart stream) (s2aRate stream) (s2aSamples stream) t ≤
      s2aSamples stream - tOffset (s2aStart stream) (s2aRate stream) t :=
    min_le_right _ _
  omega

/-- Witness for C9 at a concrete two-component collection. -/
theorem claim_C9_witness :
    ValidStream wStream ∧
      ∀ t ∈ wStream,
        0 ≤ tOffset (s2aStart wStream) (s2aRate wStream) t ∧
          tOffset (s2aStart wStream) (s2aRate wStream) t ≤ s2aSamples wStream - 1 ∧
          0 ≤ tCopyLen (s2aStart wStream) (s2aRate wStream) (s2aSamples wStream) t ∧
          tOffset (s2aStart wStream) (s2aRate wStream) t +
              tCopyLen (s2aStart wStream) (s2aRate wStream) (s2aSamples wStream) t ≤
            s2aSamples wStream :=
  ⟨by decide, claim_C9 wStream (by decide)⟩

/-- Claim C2: for a valid collection the output has
`floor((end − start) * rate) + 1` columns, and each matched trace's write
covers exactly the interval starting at its truncated offset with the clamped
length, copying its samples there and leaving every other column untouched. -/
theorem claim_C2 (stream : List Trace) (h : ValidStream stream) :
    s2aSamples stream =
        ⌊(s2aEnd stream - s2aStart stream) * s2aRate stream⌋ + 1 ∧
      ∀ (c : Char), ∀ t ∈ processedTraces stream c, ∀ (row : ℤ → ℚ) (i : ℤ),
        (tOffset (s2aStart stream) (s2aRate stream) t ≤ i ∧
            i < tOffset (s2aStart stream) (s2aRate stream) t +
                tCopyLen (s2aStart stream) (s2aRate stream) (s2aSamples stream) t →
          writeTrace (s2aStart stream) (s2aRate stream) (s2aSamples stream) row t i =
            t.data.getD (i - tOffset (s2aStart stream) (s2aRate stream) t).toNat 0) ∧
        ((i < tOffset (s2aStart stream) (s2aRate stream) t ∨
            tOffset (s2aStart stream) (s2aRate stream) t +
                tCopyLen (s2aStart stream) (s2aRate stream) (s2aSamples stream) t ≤ i) →
          writeTrace (s2aStart stream) (s2aRate stream) (s2aSamples stream) row t i =
            row i) := by
  constructor
  · unfold s2aSamples
    rw [pyTrunc_eq_floor
      (mul_nonneg (sub_nonneg.mpr (s2aEnd_ge_start h)) (le_of_lt h.2.1))]
  · intro c t ht row i
    constructor
    · intro hin
      unfold writeTrace
      rw [if_pos hin]
    · intro hout
      unfold writeTrace
      rw [if_neg]
      rintro ⟨g1, g2⟩
      rcases hout with h1 | h1 <;> omega

/-- Witness for C2 at a concrete two-component collection. -/
theorem claim_C2_witness :
    ValidStream wStream ∧
      (s2aSamples wStream =
          ⌊(s2aEnd wStream - s2aStart wStream) * s2aRate wStream⌋ + 1 ∧
        ∀ (c : Char), ∀ t ∈ processedTraces wStream c, ∀ (row : ℤ → ℚ) (i : ℤ),
          (tOffset (s2aStart wStream) (s2aRate wStream) t ≤ i ∧
              i < tOffset (s2aStart wStream) (s2aRate wStream) t +
                  tCopyLen (s2aStart wStream) (s2aRate wStream) (s2aSamples wStream) t →
            writeTrace (s2aStart wStream) (s2aRate wStream) (s2aSamples wStream) row t i =
              t.data.getD (i - tOffset (s2aStart wStream) (s2aRate wStream) t).toNat 0) ∧
          ((i < tOffset (s2aStart wStream) (s2aRate wStream) t ∨
              tOffset (s2aStart wStream) (s2aRate wStream) t +
                  tCopyLen (s2aStart wStream) (s2aRate wStream) (s2aSamples wStream) t ≤ i) →
            writeTrace (s2aStart wStream) (s2aRate wStream) (s2aSamples wStream) row t i =
              row i)) :=
  ⟨by decide, claim_C2 wStream (by decide)⟩

/-- Folding `acc + f c` over a list is the initial value plus the mapped sum. -/
theorem foldl_add_map {α : Type _} (f : α → ℚ) :
    ∀ (l : List α) (a : ℚ),
      l.foldl (fun acc c => acc + f c) a = a + (l.map f).sum := by
  intro l
  induction l with
  | nil => intro a; simp
  | cons c tl ih =>
    intro a
    rw [List.foldl_cons, ih, List.map_cons, List.sum_cons]
    ring

/-- Membership through `insertNpts`. -/
theorem mem_insertNpts {x t : Trace} :
    ∀ {l : List Trace}, x ∈ insertNpts t l → x = t ∨ x ∈ l := by
  intro l
  induction l with
  | nil =>
    intro hx
    rw [insertNpts, List.mem_singleton] at hx
    exact Or.inl hx
  | cons u us ih =>
    intro hx
    rw [insertNpts] at hx
    by_cases hc : u.data.length < t.data.length
    · rw [if_pos hc] at hx
      rcases List.mem_cons.mp hx with rfl | hx'
      · exact Or.inr (List.mem_cons_self _ _)
      · rcases ih hx' with h | h
        · exact Or.inl h
        · exact Or.inr (List.mem_cons_of_mem _ h)
    · rw [if_neg hc] at hx
      rcases List.mem_cons.mp hx with rfl | hx'
      · exact Or.inl rfl
      · exact Or.inr hx'

/-- Membership through `sortByNpts`. -/
theorem mem_sortByNpts {x : Trace} :
    ∀ {l : List Trace}, x ∈ sortByNpts l → x ∈ l := by
  intro l
  induction l with
  | nil => intro hx; exact absurd hx (List.not_mem_nil x)
  | cons u us ih =>
    intro hx
    rcases mem_insertNpts hx with rfl | hx'
    · exact List.mem_cons_self _ _
    · exact List.mem_cons_of_mem _ (ih hx')

/-- Every trace processed for a component belongs to the collection. -/
theorem mem_processedTraces {stream : List Trace} {c : Char} {t : Trace}
    (ht : t ∈ processedTraces stream c) : t ∈ stream := by
  unfold processedTraces at ht
  by_cases h1 : 1 < (selectChannel stream c).length
  · rw [if_pos h1] at ht
    have := mem_sortByNpts ht
    unfold selectChannel at this
    exact (List.mem_filter.mp this).1
  · rw [if_neg h1] at ht
    unfold selectChannel at ht
    exact (List.mem_filter.mp ht).1

/-- The accumulated copied-sample count of a component is non-negative. -/
theorem componentCopied_nonneg {stream : List Trace} {c : Char}
    (h : ValidStream stream) :
    0 ≤ componentCopied (s2aStart stream) (s2aRate stream) (s2aSamples stream)
        (processedTraces stream c) := by
  unfold componentCopied
  apply List.sum_nonneg
  intro x hx
  obtain ⟨t, ht, rfl⟩ := List.mem_map.mp hx
  exact tCopyLen_nonneg h (mem_processedTraces ht)

/-- A component's completeness term is non-negative. -/
theorem componentTerm_nonneg {stream : List Trace} (c : Char)
    (h : ValidStream stream) : 0 ≤ componentTerm stream c := by
  unfold componentTerm
  refine le_min (by norm_num) (div_nonneg ?_ ?_)
  · exact_mod_cast componentCopied_nonneg h
  · have := s2aSamples_pos h
    have h0 : (0:ℤ) ≤ s2aSamples stream := by omega
    exact_mod_cast h0

/-- A component's completeness term is at most 1. -/
theorem componentTerm_le_one (stream : List Trace) (c : Char) :
    componentTerm stream c ≤ 1 :=
  min_le_left _ _

/-- A component with no matching trace contributes 0. -/
theorem componentTerm_empty {stream : List Trace} {c : Char}
    (hsel : selectChannel stream c = []) : componentTerm stream c = 0 := by
  unfold componentTerm processedTraces componentCopied
  rw [hsel]
  norm_num

/-- The returned completeness is the mapped sum of the per-component terms
divided by the number of requested components. -/
theorem completeness_eq (stream : List Trace) (order : List Char) :
    (stream_to_array stream order).completeness =
      ((order.map fun c => componentTerm stream c).sum) / (order.length : ℚ) := by
  show (order.foldl (fun acc c => acc + componentTerm stream c) 0) /
      (order.length : ℚ) = _
  rw [foldl_add_map]
  rw [zero_add]

/-- Claim C1: the overall completeness is the average over the requested
components of `min(1, copied / samples)`; it lies in `[0, 1]`, a component
with no matching trace contributes 0, and with two requested components of
which one is entirely missing it is at most 1/2. -/
theorem claim_C1 (stream : List Trace) (order : List Char)
    (h : ValidStream stream) (ho : order ≠ []) :
    (stream_to_array stream order).completeness =
        ((order.map fun c => componentTerm stream c).sum) / (order.length : ℚ) ∧
      0 ≤ (stream_to_array stream order).completeness ∧
      (stream_to_array stream order).completeness ≤ 1 ∧
      (∀ c ∈ order, selectChannel stream c = [] → componentTerm stream c = 0) ∧
      (∀ c₁ c₂ : Char, order = [c₁, c₂] →
        selectChannel stream c₁ = [] ∨ selectChannel stream c₂ = [] →
        (stream_to_array stream order).completeness ≤ 1 / 2) := by
  have hform := completeness_eq stream order
  have hlen : 0 < (order.length : ℚ) := by
    have : 0 < order.length := List.length_pos.mpr ho
    exact_mod_cast this
  refine ⟨hform, ?_, ?_, ?_, ?_⟩
  · rw [hform]
    apply div_nonneg _ (le_of_lt hlen)
    apply List.sum_nonneg
    intro x hx
    obtain ⟨c, _, rfl⟩ := List.mem_map.mp hx
    exact componentTerm_nonneg c h
  · rw [hform, div_le_one hlen]
    have hb : ∀ x ∈ order.map fun c => componentTerm stream c, x ≤ 1 := by
      intro x hx
      obtain ⟨c, _, rfl⟩ := List.mem_map.mp hx
      exact componentTerm_le_one stream c
    have := List.sum_le_card_nsmul (order.map fun c => componentTerm stream c) 1 hb
    rwa [List.length_map, nsmul_eq_mul, mul_one] at this
  · intro c _ hsel
    exact componentTerm_empty hsel
  · rintro c₁ c₂ rfl hmiss
    rw [hform]
    have h₂ := componentTerm_nonneg c₂ h
    have h₁ := componentTerm_nonneg c₁ h
    have g₁ := componentTerm_le_one stream c₁
    have g₂ := componentTerm_le_one stream c₂
    simp only [List.map_cons, List.map_nil, List.sum_cons, List.sum_nil,
      List.length_cons, List.length_nil]
    rcases hmiss with hm | hm
    · rw [componentTerm_empty hm]
      push_cast
      linarith
    · rw [componentTerm_empty hm]
      push_cast
      linarith

/-- Witness for C1 at a concrete two-component collection. -/
theorem claim_C1_witness :
    ValidStream wStream ∧ (['Z', 'N'] : List Char) ≠ [] ∧
      ((stream_to_array wStream ['Z', 'N']).completeness =
          ((['Z', 'N'].map fun c => componentTerm wStream c).sum) /
            ((['Z', 'N'] : List Char).length : ℚ) ∧
        0 ≤ (stream_to_array wStream ['Z', 'N']).completeness ∧
        (stream_to_array wStream ['Z', 'N']).completeness ≤ 1 ∧
        (∀ c ∈ (['Z', 'N'] : List Char), selectChannel wStream c = [] →
          componentTerm wStream c = 0) ∧
        (∀ c₁ c₂ : Char, (['Z', 'N'] : List Char) = [c₁, c₂] →
          selectChannel wStream c₁ = [] ∨ selectChannel wStream c₂ = [] →
          (stream_to_array wStream ['Z', 'N']).completeness ≤ 1 / 2)) :=
  ⟨by decide, by decide, claim_C1 wStream ['Z', 'N'] (by decide) (by decide)⟩

/-- Claim C4: every row of the returned array has exactly zero mean (in the
exact-rational model): the per-row mean over all output columns, gap zeros
included, was subtracted from every sample of the row. -/
theorem claim_C4 (stream : List Trace) (order : List Char) (h : ValidStream stream) :
    ∀ row ∈ (stream_to_array stream order).data,
      rowMean (s2aSamples stream) row = 0 := by
  intro row hrow
  have hdata : (stream_to_array stream order).data =
      order.map fun c =>
        fun i => componentRow (s2aStart stream) (s2aRate stream) (s2aSamples stream)
            (processedTraces stream c) i -
          rowMean (s2aSamples stream)
            (componentRow (s2aStart stream) (s2aRate stream) (s2aSamples stream)
              (processedTraces stream c)) := rfl
  rw [hdata] at hrow
  obtain ⟨c, _, rfl⟩ := List.mem_map.mp hrow
  have hn : 1 ≤ s2aSamples stream := s2aSamples_pos h
  have hne : ((s2aSamples stream : ℤ) : ℚ) ≠ 0 := by
    have h0 : s2aSamples stream ≠ 0 := by omega
    exact_mod_cast h0
  unfold rowMean
  simp only [Finset.sum_sub_distrib, Finset.sum_const, Finset.card_range, nsmul_eq_mul]
  have hcast : (((s2aSamples stream).toNat : ℚ)) = ((s2aSamples stream : ℤ) : ℚ) := by
    exact_mod_cast Int.toNat_of_nonneg (by omega : (0:ℤ) ≤ s2aSamples stream)
  rw [hcast, mul_comm ((s2aSamples stream : ℤ) : ℚ), div_mul_cancel₀ _ hne, sub_self,
    zero_div]

/-- Witness for C4 at a concrete two-component collection. -/
theorem claim_C4_witness :
    ValidStream wStream ∧
      ∀ row ∈ (stream_to_array wStream ['Z', 'N']).data,
        rowMean (s2aSamples wStream) row = 0 :=
  ⟨by decide, claim_C4 wStream ['Z', 'N'] (by decide)⟩

/-- A write covers its own interval with the trace's samples. -/
theorem writeTrace_in {st r : ℚ} {n : ℤ} {row : ℤ → ℚ} {t : Trace} {i : ℤ}
    (h1 : tOffset st r t ≤ i) (h2 : i < tOffset st r t + tCopyLen st r n t) :
    writeTrace st r n row t i = t.data.getD (i - tOffset st r t).toNat 0 := by
  unfold writeTrace
  rw [if_pos ⟨h1, h2⟩]

/-- Claim C3: with exactly two traces of different lengths matching one
component, the loop processes them shortest-first (the processed list is
sorted ascending by sample count), so at every output position inside both
traces' copy ranges the longer trace's sample is the one present. -/
theorem claim_C3 (stream : List Trace) (c : Char) (ta tb : Trace)
    (hsel : selectChannel stream c = [ta, tb])
    (hlen : ta.data.length ≠ tb.data.length) :
    List.Pairwise (fun u v => u.data.length ≤ v.data.length)
        (processedTraces stream c) ∧
      ∀ i : ℤ,
        tOffset (s2aStart stream) (s2aRate stream) (longTrace ta tb) ≤ i →
        i < tOffset (s2aStart stream) (s2aRate stream) (longTrace ta tb) +
            tCopyLen (s2aStart stream) (s2aRate stream) (s2aSamples stream)
              (longTrace ta tb) →
        tOffset (s2aStart stream) (s2aRate stream) (shortTrace ta tb) ≤ i →
        i < tOffset (s2aStart stream) (s2aRate stream) (shortTrace ta tb) +
            tCopyLen (s2aStart stream) (s2aRate stream) (s2aSamples stream)
              (shortTrace ta tb) →
        componentRow (s2aStart stream) (s2aRate stream) (s2aSamples stream)
            (processedTraces stream c) i =
          (longTrace ta tb).data.getD
            (i - tOffset (s2aStart stream) (s2aRate stream) (longTrace ta tb)).toNat
            0 := by
  have hproc : processedTraces stream c =
      if tb.data.length < ta.data.length then [tb, ta] else [ta, tb] := by
    unfold processedTraces
    rw [hsel]
    rw [if_pos (by simp : 1 < ([ta, tb] : List Trace).length)]
    simp only [sortByNpts, List.foldr_cons, List.foldr_nil, insertNpts]
  constructor
  · rw [hproc]
    by_cases hc : tb.data.length < ta.data.length
    · rw [if_pos hc]
      simp [List.pairwise_cons]
      omega
    · rw [if_neg hc]
      simp [List.pairwise_cons]
      omega
  · intro i h1 h2 h3 h4
    rw [hproc]
    by_cases hc : tb.data.length < ta.data.length
    · have hlong : longTrace ta tb = ta := by
        unfold longTrace
        rw [if_neg (by omega)]
      rw [hlong] at h1 h2 ⊢
      rw [if_pos hc]
      simp only [componentRow, List.foldl_cons, List.foldl_nil]
      exact writeTrace_in h1 h2
    · have hlong : longTrace ta tb = tb := by
        unfold longTrace
        rw [if_pos (by omega)]
      rw [hlong] at h1 h2 ⊢
      rw [if_neg hc]
      simp only [componentRow, List.foldl_cons, List.foldl_nil]
      exact writeTrace_in h1 h2

/-- Witness for C3 at a concrete duplicate-component collection. -/
theorem claim_C3_witness :
    selectChannel dupStream 'Z' = [dupShort, dupLong] ∧
      dupShort.data.length ≠ dupLong.data.length ∧
      (List.Pairwise (fun u v => u.data.length ≤ v.data.length)
          (processedTraces dupStream 'Z') ∧
        ∀ i : ℤ,
          tOffset (s2aStart dupStream) (s2aRate dupStream) (longTrace dupShort dupLong) ≤ i →
          i < tOffset (s2aStart dupStream) (s2aRate dupStream) (longTrace dupShort dupLong) +
              tCopyLen (s2aStart dupStream) (s2aRate dupStream) (s2aSamples dupStream)
                (longTrace dupShort dupLong) →
          tOffset (s2aStart dupStream) (s2aRate dupStream) (shortTrace dupShort dupLong) ≤ i →
          i < tOffset (s2aStart dupStream) (s2aRate dupStream) (shortTrace dupShort dupLong) +
              tCopyLen (s2aStart dupStream) (s2aRate dupStream) (s2aSamples dupStream)
                (shortTrace dupShort dupLong) →
          componentRow (s2aStart dupStream) (s2aRate dupStream) (s2aSamples dupStream)
              (processedTraces dupStream 'Z') i =
            (longTrace dupShort dupLong).data.getD
              (i - tOffset (s2aStart dupStream) (s2aRate dupStream)
                  (longTrace dupShort dupLong)).toNat 0) :=
  ⟨by decide, by decide, claim_C3 dupStream 'Z' dupShort dupLong (by decide) (by decide)⟩
